import Mathlib

/-!
Verification of the optimization-and-sampling core of the notebooks:
max-cut Ising construction, greedy spin coloring, the clamped
simulated-annealing loop, and the Boltzmann distribution estimator.

Python dictionaries are embedded as association lists (`List (key × value)`)
with first-match lookup; floating-point weights, biases and inverse
temperatures are embedded as rationals (the notebooks only ever use exactly
representable values), and spins as integers in `{-1, +1}`.
-/

set_option maxHeartbeats 1000000

namespace QmlCore

/-- First-match lookup in an association list, mirroring Python `dict[k]`
(`none` when the key is absent). -/
def alookup {α β : Type} [DecidableEq α] : List (α × β) → α → Option β
  | [], _ => none
  | p :: rest, k => if p.1 = k then some p.2 else alookup rest k

theorem alookup_nil {α β : Type} [DecidableEq α] (k : α) :
    alookup ([] : List (α × β)) k = none := rfl

theorem alookup_cons {α β : Type} [DecidableEq α] (p : α × β) (l : List (α × β)) (k : α) :
    alookup (p :: l) k = if p.1 = k then some p.2 else alookup l k := rfl

theorem alookup_append {α β : Type} [DecidableEq α] (l₁ l₂ : List (α × β)) (k : α) :
    alookup (l₁ ++ l₂) k =
      match alookup l₁ k with
      | some b => some b
      | none => alookup l₂ k := by
  induction l₁ with
  | nil => rfl
  | cons p rest ih =>
    by_cases h : p.1 = k <;> simp [alookup, h, ih]

theorem alookup_eq_none {α β : Type} [DecidableEq α] (l : List (α × β)) (k : α)
    (h : k ∉ l.map Prod.fst) : alookup l k = none := by
  induction l with
  | nil => rfl
  | cons p rest ih =>
    simp only [List.map_cons, List.mem_cons] at h
    push_neg at h
    simp [alookup, Ne.symm h.1, ih h.2]

theorem alookup_mem {α β : Type} [DecidableEq α] {l : List (α × β)} {k : α} {b : β}
    (h : alookup l k = some b) : (k, b) ∈ l := by
  induction l with
  | nil => simp [alookup] at h
  | cons p rest ih =>
    by_cases hp : p.1 = k
    · rw [alookup, if_pos hp] at h
      have hb : p.2 = b := by injection h
      subst hb
      subst hp
      simp
    · simp only [alookup, hp, if_neg, if_false] at h
      exact List.mem_cons_of_mem _ (ih h)

theorem alookup_isSome_of_mem_keys {α β : Type} [DecidableEq α] {l : List (α × β)} {k : α}
    (h : k ∈ l.map Prod.fst) : ∃ b, alookup l k = some b := by
  induction l with
  | nil => simp at h
  | cons p rest ih =>
    by_cases hp : p.1 = k
    · exact ⟨p.2, by simp [alookup, hp]⟩
    · simp only [List.map_cons, List.mem_cons] at h
      rcases h with h | h
      · exact absurd h.symm hp
      · rcases ih h with ⟨b, hb⟩
        exact ⟨b, by simp [alookup, hp, hb]⟩

theorem alookup_of_mem_nodupKeys {α β : Type} [DecidableEq α] {l : List (α × β)} {k : α} {b : β}
    (hmem : (k, b) ∈ l) (hnd : (l.map Prod.fst).Nodup) : alookup l k = some b := by
  induction l with
  | nil => simp at hmem
  | cons p rest ih =>
    simp only [List.map_cons, List.nodup_cons] at hnd
    rcases List.mem_cons.1 hmem with h | h
    · subst h
      simp [alookup]
    · have hp : p.1 ≠ k := by
        intro hk
        exact hnd.1 (hk ▸ (List.mem_map.2 ⟨(k, b), h, rfl⟩))
      simp [alookup, hp, ih h hnd.2]

/-! ## Energy model (max-cut construction, notebook 10 annealing cell)

The source builds, from the symmetric pairwise-distance matrix `w`,
`h[i] = 0` for every node and `J[(i, j)] = w[i, j]` for every pair
`i < j`, and passes the constant offset `0.0` to the model constructor. -/

/-- Bias dictionary of the max-cut model: `h[i] = 0` for every `i < n`. -/
def buildH (n : ℕ) : List (ℕ × ℚ) := (List.range n).map fun i => (i, 0)

/-- Coupling dictionary of the max-cut model: `J[(i, j)] = w i j`
for every `i < j < n` (the inner loop is `for j in range(i+1, n)`). -/
def buildJ (n : ℕ) (w : ℕ → ℕ → ℚ) : List ((ℕ × ℕ) × ℚ) :=
  (List.range n).flatMap fun i => (List.range' (i + 1) (n - i - 1)).map fun j => ((i, j), w i j)

/-- The max-cut Ising model as constructed in the source: the bias dict,
the coupling dict, and the constant offset `0.0` that the source passes to
`BinaryQuadraticModel`. -/
def buildMaxcutIsing (n : ℕ) (w : ℕ → ℕ → ℚ) : List (ℕ × ℚ) × List ((ℕ × ℕ) × ℚ) × ℚ :=
  (buildH n, buildJ n w, 0)

/-- Total weight of the matrix summed over both orderings of each pair. -/
def totalWeight (n : ℕ) (w : ℕ → ℕ → ℚ) : ℚ :=
  ((List.range n).map fun i => ((List.range n).map fun j => w i j).sum).sum

/-- The single-edge weight matrix with `w 0 1 = w 1 0 = 2`. -/
def wEdge : ℕ → ℕ → ℚ := fun i j =>
  if (i = 0 ∧ j = 1) ∨ (i = 1 ∧ j = 0) then 2 else 0

theorem buildH_keys (n : ℕ) : (buildH n).map Prod.fst = List.range n := by
  simp [buildH, List.map_map, Function.comp_def]

theorem buildH_lookup {n i : ℕ} (h : i < n) : alookup (buildH n) i = some 0 := by
  refine alookup_of_mem_nodupKeys ?_ ?_
  · exact List.mem_map.2 ⟨i, List.mem_range.2 h, rfl⟩
  · rw [buildH_keys]
    exact List.nodup_range n

theorem buildJ_keys (n : ℕ) (w : ℕ → ℕ → ℚ) :
    (buildJ n w).map Prod.fst =
      (List.range n).flatMap fun i => (List.range' (i + 1) (n - i - 1)).map fun j => (i, j) := by
  simp [buildJ, List.map_flatMap, List.map_map, Function.comp_def]

theorem buildJ_keys_nodup (n : ℕ) (w : ℕ → ℕ → ℚ) : ((buildJ n w).map Prod.fst).Nodup := by
  rw [buildJ_keys]
  refine List.nodup_flatMap.2 ⟨?_, ?_⟩
  · intro i _
    refine List.Nodup.map ?_ (by simp [List.nodup_range'])
    intro a b hab
    simpa using hab
  · refine List.Pairwise.imp ?_ (List.pairwise_lt_range n)
    intro i i' hlt
    intro p hp hp'
    rcases List.mem_map.1 hp with ⟨j, _, rfl⟩
    rcases List.mem_map.1 hp' with ⟨j', _, hj'⟩
    have : i' = i := by
      have := congrArg Prod.fst hj'
      simpa using this
    omega

theorem mem_buildJ {n i j : ℕ} (w : ℕ → ℕ → ℚ) (hij : i < j) (hj : j < n) :
    ((i, j), w i j) ∈ buildJ n w := by
  refine List.mem_flatMap.2 ⟨i, List.mem_range.2 (lt_trans hij hj), ?_⟩
  refine List.mem_map.2 ⟨j, ?_, rfl⟩
  rw [List.mem_range'_1]
  omega

theorem buildJ_lookup {n i j : ℕ} (w : ℕ → ℕ → ℚ) (hij : i < j) (hj : j < n) :
    alookup (buildJ n w) (i, j) = some (w i j) :=
  alookup_of_mem_nodupKeys (mem_buildJ w hij hj) (buildJ_keys_nodup n w)

/-- C1 counterexample: on the single-edge matrix with `w 0 1 = w 1 0 = 2` the
constant offset of the constructed model is `0`, not one quarter of the total
weight (`1`). -/
theorem maxcut_offset_not_quarter_sum :
    (buildMaxcutIsing 2 wEdge).2.2 ≠ (1 / 4 : ℚ) * totalWeight 2 wEdge := by
  norm_num [buildMaxcutIsing, totalWeight, wEdge, List.range_succ]

/-- C1 (amended): for every symmetric non-negative weight matrix,
`build_maxcut_ising` gives `h[i] = 0` for every node, `J[(i,j)] = w i j` for
every pair `i < j` (in particular every nonzero-weight pair), and the constant
offset `0.0` that the source passes to the model constructor. -/
theorem build_maxcut_ising_fields (n : ℕ) (w : ℕ → ℕ → ℚ) (hn : 1 ≤ n)
    (hsym : ∀ i j, w i j = w j i) (hpos : ∀ i j, 0 ≤ w i j) :
    (∀ i, i < n → alookup (buildH n) i = some 0) ∧
    (∀ i j, i < j → j < n → alookup (buildJ n w) (i, j) = some (w i j)) ∧
    (buildMaxcutIsing n w).2.2 = 0 := by
  refine ⟨fun i hi => buildH_lookup hi, fun i j hij hj => buildJ_lookup w hij hj, rfl⟩

/-- Witness for `build_maxcut_ising_fields` at the single-edge matrix. -/
theorem build_maxcut_ising_fields_witness :
    1 ≤ 2 ∧ alookup (buildJ 2 wEdge) (0, 1) = some 2 := by
  have hsym : ∀ i j, wEdge i j = wEdge j i := by
    intro i j
    unfold wEdge
    split_ifs with h1 h2 <;> tauto
  have hpos : ∀ i j, 0 ≤ wEdge i j := by
    intro i j
    unfold wEdge
    split_ifs <;> norm_num
  have h := build_maxcut_ising_fields 2 wEdge (by norm_num) hsym hpos
  refine ⟨by norm_num, ?_⟩
  have := h.2.1 0 1 (by norm_num) (by norm_num)
  simpa [wEdge] using this

/-! ## The 3-node chain Ising model of the probabilistic-graphical-models
notebook: `h = {0:1, 1:1, 2:1}`, `J = {(0,1): 2, (1,2): -1}`. -/

/-- Bias dictionary `h = {v: 1 for v in range(3)}`. -/
def hd3 : List (ℕ × ℚ) := [(0, 1), (1, 1), (2, 1)]

/-- Coupling dictionary `J = {(0, 1): 2, (1, 2): -1}`. -/
def Jd3 : List ((ℕ × ℕ) × ℚ) := [((0, 1), 2), ((1, 2), -1)]

/-- Ising energy of a spin configuration for a bias/coupling dictionary pair:
`E = Σ h(i)·s(i) + Σ J(i,j)·s(i)·s(j)` (the `dimod.SPIN` energy with zero
offset, as stated in the notebook text). -/
def energyOf (hd : List (ℕ × ℚ)) (Jd : List ((ℕ × ℕ) × ℚ)) (s : ℕ → ℤ) : ℚ :=
  (hd.map fun p => p.2 * (s p.1 : ℚ)).sum +
    (Jd.map fun p => p.2 * (s p.1.1 : ℚ) * (s p.1.2 : ℚ)).sum

/-- All 8 spin assignments of three spins in `{-1, +1}`. -/
def allConfigs : List (ℤ × ℤ × ℤ) :=
  ([-1, 1] : List ℤ).flatMap fun a =>
    ([-1, 1] : List ℤ).flatMap fun b =>
      ([-1, 1] : List ℤ).map fun c => (a, b, c)

/-- A spin triple as a configuration on nodes `0, 1, 2`. -/
def toSpin (t : ℤ × ℤ × ℤ) : ℕ → ℤ := fun v =>
  if v = 0 then t.1 else if v = 1 then t.2.1 else t.2.2

/-- The energies of all 8 configurations of the 3-node chain. -/
def chainEnergies : List ℚ := allConfigs.map fun t => energyOf hd3 Jd3 (toSpin t)

/-- C5: exhaustive enumeration of the 3-node chain gives exactly one
configuration at energy `-4`, three at `-2`, one at `0`, and three at other
energies. -/
theorem chain3_energy_degeneracy :
    chainEnergies.length = 8 ∧
    chainEnergies.count (-4) = 1 ∧
    chainEnergies.count (-2) = 3 ∧
    chainEnergies.count 0 = 1 ∧
    chainEnergies.countP (fun e => decide (e ≠ -4 ∧ e ≠ -2 ∧ e ≠ 0)) = 3 := by
  have hE : chainEnergies = [-2, 2, -2, -2, -4, 0, 4, 4] := by
    norm_num [chainEnergies, allConfigs, energyOf, hd3, Jd3, toSpin,
      List.flatMap_cons, List.flatMap_nil]
  rw [hE]
  refine ⟨rfl, ?_, ?_, ?_, ?_⟩ <;>
    norm_num [List.count_cons, List.countP_cons, decide_eq_true_eq]

/-! ## The annealing schedule of the clamped-annealing cell:
`βs = [1.0 - 1.0*i / (num_sweeps - 1.) for i in range(num_sweeps)]` with
`num_sweeps = 1000`. -/

/-- The inverse-temperature schedule exactly as the source computes it. -/
def betas (numSweeps : ℕ) : List ℚ :=
  List.map (fun (i : ℕ) => 1 - (i : ℚ) / ((numSweeps : ℚ) - 1)) (List.range numSweeps)

theorem betas_getD {n : ℕ} (i : ℕ) (h : i < n) :
    (betas n).getD i 0 = 1 - (i : ℚ) / ((n : ℚ) - 1) := by
  have h' : i < (betas n).length := by
    rw [betas, List.length_map, List.length_range]
    exact h
  rw [List.getD_eq_getElem?_getD, List.getElem?_eq_getElem h']
  simp [betas]

/-- C6 (code bug evidence): the schedule the source feeds to the sweep loop has
the configured length `1000`, but runs strictly DOWNWARD from `β = 1` to
`β = 0`: it is not monotonically non-decreasing. -/
theorem betas_schedule_decreasing :
    (betas 1000).length = 1000 ∧
    (betas 1000).getD 0 0 = 1 ∧
    (betas 1000).getD 999 0 = 0 ∧
    (betas 1000).getD 1 0 < (betas 1000).getD 0 0 := by
  refine ⟨by rw [betas, List.length_map, List.length_range], ?_, ?_, ?_⟩
  · rw [betas_getD 0 (by norm_num)]
    norm_num
  · rw [betas_getD 999 (by norm_num)]
    norm_num
  · rw [betas_getD 1 (by norm_num), betas_getD 0 (by norm_num)]
    norm_num

/-! ## Degeneracy histogram and Boltzmann distribution estimate

`g = {}`; for each solution of `response.aggregate().data()`:
`g[E] += 1` if `E` is already a key, else `g[E] = 1`; then
`probabilities = [g[E]*exp(-E/T) for E in g]` normalized by its sum. -/

/-- One iteration of the histogram loop: increment the count of key `E`, or
append `(E, 1)` when `E` is a new key (Python dicts keep insertion order). -/
def addRecord : List (ℚ × ℕ) → ℚ → List (ℚ × ℕ)
  | [], E => [(E, 1)]
  | p :: rest, E => if p.1 = E then (p.1, p.2 + 1) :: rest else p :: addRecord rest E

/-- The degeneracy histogram built by folding the energies in order. -/
def buildHist (energies : List ℚ) : List (ℚ × ℕ) := energies.foldl addRecord []

/-- Count stored in the histogram for energy `E` (0 when absent). -/
def histCount (g : List (ℚ × ℕ)) (E : ℚ) : ℕ := (alookup g E).getD 0

/-- Sum of all counts stored in the histogram. -/
def sumCounts (g : List (ℚ × ℕ)) : ℕ := (g.map Prod.snd).sum

/-- A completed sampler run: a spin configuration (as the list of its spin
values) together with its energy. -/
def aggregateRecords (rs : List (List ℤ × ℚ)) : List (List ℤ × ℚ) := rs.dedup

/-- The histogram the source builds: it iterates `response.aggregate().data()`,
i.e. the DISTINCT sample records after dimod's `aggregate()` merges identical
samples, and increments `g[solution.energy]` once per distinct record. -/
def responseHist (rs : List (List ℤ × ℚ)) : List (ℚ × ℕ) :=
  buildHist ((aggregateRecords rs).map Prod.snd)

theorem sumCounts_addRecord (g : List (ℚ × ℕ)) (E : ℚ) :
    sumCounts (addRecord g E) = sumCounts g + 1 := by
  induction g with
  | nil => rfl
  | cons p rest ih =>
    by_cases h : p.1 = E
    · simp [addRecord, h, sumCounts]
      omega
    · simp [addRecord, h, sumCounts] at ih ⊢
      omega

theorem histCount_addRecord (g : List (ℚ × ℕ)) (E F : ℚ) :
    histCount (addRecord g E) F = histCount g F + (if F = E then 1 else 0) := by
  induction g with
  | nil =>
    by_cases h : F = E
    · subst h
      simp [addRecord, histCount, alookup_cons, alookup_nil]
    · rw [addRecord, histCount, alookup_cons, if_neg (fun hh => h hh.symm), alookup_nil,
        if_neg h]
      rfl
  | cons p rest ih =>
    by_cases hp : p.1 = E
    · rw [addRecord, if_pos hp]
      by_cases hF : p.1 = F
      · have hFE : F = E := by rw [← hF, hp]
        rw [histCount, alookup_cons, if_pos hF, histCount, alookup_cons, if_pos hF,
          if_pos hFE]
        rfl
      · have hFE : ¬ F = E := fun h => hF (by rw [hp, ← h])
        rw [histCount, alookup_cons, if_neg hF, histCount, alookup_cons, if_neg hF,
          if_neg hFE]
        simp [histCount]
    · rw [addRecord, if_neg hp]
      by_cases hF : p.1 = F
      · have hFE : ¬ F = E := fun h => hp (by rw [hF, h])
        rw [histCount, alookup_cons, if_pos hF, histCount, alookup_cons, if_pos hF,
          if_neg hFE]
        rfl
      · rw [histCount, alookup_cons, if_neg hF, histCount, alookup_cons, if_neg hF]
        exact ih

theorem sumCounts_foldl (es : List ℚ) :
    ∀ g, sumCounts (es.foldl addRecord g) = sumCounts g + es.length := by
  induction es with
  | nil => intro g; simp
  | cons e es ih =>
    intro g
    rw [List.foldl_cons, ih, sumCounts_addRecord, List.length_cons]
    omega

theorem histCount_foldl (es : List ℚ) (F : ℚ) :
    ∀ g, histCount (es.foldl addRecord g) F = histCount g F + es.count F := by
  induction es with
  | nil => intro g; simp
  | cons e es ih =>
    intro g
    rw [List.foldl_cons, ih, histCount_addRecord, List.count_cons]
    by_cases h : F = e
    · simp [h]
      omega
    · simp [h, Ne.symm h]

/-- C8 counterexample: two repetitions that produce the same sample record are
merged by `aggregate()` before the histogram loop, so the histogram count and
its total are `1`, not the repetition count `2`. -/
theorem histogram_counts_not_reads :
    sumCounts (responseHist [([1, 1, 1], -4), ([1, 1, 1], -4)]) ≠
      (([([1, 1, 1], -4), ([1, 1, 1], -4)] : List (List ℤ × ℚ))).length ∧
    histCount (responseHist [([1, 1, 1], -4), ([1, 1, 1], -4)]) (-4) ≠
      (([([1, 1, 1], -4), ([1, 1, 1], -4)] : List (List ℤ × ℚ)).map Prod.snd).count (-4) := by
  decide

/-- C8 (amended): the histogram starts empty and is incremented exactly once
per AGGREGATED (distinct) sample record, so `g(E)` is the number of distinct
records with energy `E` and the counts sum to the number of distinct records
(not, in general, to the repetition count). -/
theorem histogram_counts_distinct_records (rs : List (List ℤ × ℚ)) :
    sumCounts (responseHist rs) = (aggregateRecords rs).length ∧
    ∀ E, histCount (responseHist rs) E = ((aggregateRecords rs).map Prod.snd).count E := by
  constructor
  · rw [responseHist, buildHist, sumCounts_foldl]
    simp [sumCounts]
  · intro E
    rw [responseHist, buildHist, histCount_foldl]
    simp [histCount, alookup]

theorem addRecord_counts_pos (g : List (ℚ × ℕ)) (E : ℚ) (h : ∀ p ∈ g, 1 ≤ p.2) :
    ∀ p ∈ addRecord g E, 1 ≤ p.2 := by
  induction g with
  | nil =>
    intro p hp
    simp [addRecord] at hp
    subst hp
    exact le_refl 1
  | cons q rest ih =>
    by_cases hq : q.1 = E
    · intro p hp
      simp [addRecord, hq] at hp
      rcases hp with hp | hp
      · subst hp
        simp
      · exact h p (List.mem_cons_of_mem _ hp)
    · intro p hp
      simp only [addRecord, hq, if_neg, if_false, List.mem_cons] at hp
      rcases hp with hp | hp
      · rw [hp]
        exact h q (List.mem_cons_self _ _)
      · exact ih (fun r hr => h r (List.mem_cons_of_mem _ hr)) p hp

theorem buildHist_counts_pos (es : List ℚ) :
    ∀ g, (∀ p ∈ g, 1 ≤ p.2) → ∀ p ∈ es.foldl addRecord g, 1 ≤ p.2 := by
  induction es with
  | nil => intro g hg; simpa using hg
  | cons e es ih =>
    intro g hg
    rw [List.foldl_cons]
    exact ih _ (addRecord_counts_pos g e hg)

theorem buildHist_ne_nil {es : List ℚ} (h : es ≠ []) : buildHist es ≠ [] := by
  intro hnil
  have hsum := sumCounts_foldl es []
  rw [← buildHist, hnil] at hsum
  simp [sumCounts] at hsum
  exact h (List.length_eq_zero.1 hsum.symm)

/-- Unnormalized Boltzmann weights `g[E] * exp(-E/T)` in key order. -/
noncomputable def weightsOf (g : List (ℚ × ℕ)) (T : ℝ) : List ℝ :=
  g.map fun p => (p.2 : ℝ) * Real.exp (-(p.1 : ℝ) / T)

/-- Normalized probabilities: every weight divided by the partition sum `Z`. -/
noncomputable def probsOf (g : List (ℚ × ℕ)) (T : ℝ) : List ℝ :=
  (weightsOf g T).map fun x => x / (weightsOf g T).sum

theorem sum_map_div (l : List ℝ) (c : ℝ) : (l.map fun x => x / c).sum = l.sum / c := by
  induction l with
  | nil => simp
  | cons x xs ih => simp [ih, add_div]

/-- C7: the normalized probabilities of the distribution estimate sum to `1`
for every repetition count `R ≥ 1` and every temperature `T > 0`. -/
theorem estimate_distribution_sums_to_one (rs : List (List ℤ × ℚ)) (T : ℝ)
    (hT : 0 < T) (hR : 1 ≤ rs.length) : (probsOf (responseHist rs) T).sum = 1 := by
  have hrs : rs ≠ [] := by
    intro h
    rw [h] at hR
    simp at hR
  have hes : (aggregateRecords rs).map Prod.snd ≠ [] := by
    simp [aggregateRecords, List.dedup_eq_nil]
    exact hrs
  have hg : responseHist rs ≠ [] := buildHist_ne_nil hes
  have hcounts : ∀ p ∈ responseHist rs, 1 ≤ p.2 :=
    buildHist_counts_pos _ [] (by simp)
  have hwpos : ∀ x ∈ weightsOf (responseHist rs) T, 0 < x := by
    intro x hx
    rcases List.mem_map.1 hx with ⟨p, hp, rfl⟩
    have h1 : (1 : ℝ) ≤ (p.2 : ℝ) := by exact_mod_cast hcounts p hp
    exact mul_pos (lt_of_lt_of_le one_pos h1) (Real.exp_pos _)
  have hwne : weightsOf (responseHist rs) T ≠ [] := by
    simp [weightsOf]
    exact hg
  have hZ : 0 < (weightsOf (responseHist rs) T).sum :=
    List.sum_pos _ hwpos hwne
  rw [probsOf, sum_map_div, div_self (ne_of_gt hZ)]

/-- Witness for `estimate_distribution_sums_to_one` with one repetition at
temperature `1`. -/
theorem estimate_distribution_sums_to_one_witness :
    0 < (1 : ℝ) ∧ (probsOf (responseHist [([1, 1, 1], 3)]) 1).sum = 1 :=
  ⟨one_pos, estimate_distribution_sums_to_one [([1, 1, 1], 3)] 1 one_pos (by decide)⟩

/-! ## Metropolis acceptance rule

The source tests `np.log(np.random.uniform(0, 1)) < -1. * β * delta` and
multiplies the spin by `-1` when the test holds. -/

/-- The acceptance predicate exactly as written in the source, for a draw
`u ∈ (0, 1)`: `log(u) < -1 * β * delta`. -/
def accept (β delta u : ℝ) : Prop := Real.log u < -1 * β * delta

/-- C2: with `β ≥ 0`, the Metropolis test accepts every strictly
energy-lowering flip for every draw in `(0, 1)`, and for `delta ≥ 0` the set
of accepting draws in `(0, 1)` has Lebesgue measure `exp(-β·delta)`. -/
theorem metropolis_accept_rule (β delta : ℝ) (hβ : 0 ≤ β) :
    (∀ u : ℝ, delta < 0 → 0 < u → u < 1 → accept β delta u) ∧
    (0 ≤ delta →
      MeasureTheory.volume {u : ℝ | u ∈ Set.Ioo (0 : ℝ) 1 ∧ accept β delta u} =
        ENNReal.ofReal (Real.exp (-1 * β * delta))) := by
  constructor
  · intro u hdelta hu h1
    have hlog : Real.log u < 0 := Real.log_neg hu h1
    have hthr : 0 ≤ -1 * β * delta := by nlinarith
    exact lt_of_lt_of_le hlog hthr
  · intro hdelta
    have hthr : -1 * β * delta ≤ 0 := by nlinarith
    have hexp : Real.exp (-1 * β * delta) ≤ 1 := Real.exp_le_one_iff.2 hthr
    have hset : {u : ℝ | u ∈ Set.Ioo (0 : ℝ) 1 ∧ accept β delta u} =
        Set.Ioo (0 : ℝ) (Real.exp (-1 * β * delta)) := by
      ext u
      simp only [Set.mem_setOf_eq, Set.mem_Ioo, accept]
      constructor
      · rintro ⟨⟨hu, _⟩, hacc⟩
        exact ⟨hu, (Real.log_lt_iff_lt_exp hu).1 hacc⟩
      · rintro ⟨hu, hlt⟩
        exact ⟨⟨hu, lt_of_lt_of_le hlt hexp⟩, (Real.log_lt_iff_lt_exp hu).2 hlt⟩
    rw [hset, Real.volume_Ioo, sub_zero]

/-- Witness for `metropolis_accept_rule`: at `β = 1`, `delta = -1` the draw
`u = 1/2` is accepted. -/
theorem metropolis_accept_rule_witness : (0 : ℝ) ≤ 1 ∧ accept 1 (-1) (1 / 2) :=
  ⟨by norm_num,
    (metropolis_accept_rule 1 (-1) (by norm_num)).1 (1 / 2) (by norm_num) (by norm_num)
      (by norm_num)⟩

/-- The logarithm as numpy computes it on `[0, 1)` draws: `np.log(0) = -inf`,
modelled in the extended reals. -/
noncomputable def numpyLog (u : ℝ) : EReal := if u = 0 then ⊥ else ((Real.log u : ℝ) : EReal)

/-- The acceptance test on an arbitrary draw from `[0, 1)`, extended-real
comparison mirroring the float comparison `-inf < anything`. -/
def acceptAtDraw (β delta u : ℝ) : Prop :=
  numpyLog u < ((-1 * β * delta : ℝ) : EReal)

/-- C10: a draw of exactly `0` (possible for `uniform(0,1)`, which samples
`[0,1)`) is accepted unconditionally for every finite `β` and `delta`, while
every draw in `(0,1)` behaves as the Metropolis criterion specifies. -/
theorem numpy_log_zero_always_accepts (β delta : ℝ) :
    acceptAtDraw β delta 0 ∧
    ∀ u : ℝ, 0 < u → u < 1 → (acceptAtDraw β delta u ↔ accept β delta u) := by
  constructor
  · show numpyLog 0 < _
    rw [numpyLog, if_pos rfl]
    exact EReal.bot_lt_coe _
  · intro u hu _
    rw [acceptAtDraw, numpyLog, if_neg (ne_of_gt hu)]
    exact EReal.coe_lt_coe_iff

/-- Witness for `numpy_log_zero_always_accepts` at `β = 3`, `delta = 5`,
`u = 1/2`. -/
theorem numpy_log_zero_always_accepts_witness :
    0 < (1 / 2 : ℝ) ∧ (acceptAtDraw 3 5 (1 / 2) ↔ accept 3 5 (1 / 2)) :=
  ⟨by norm_num,
    (numpy_log_zero_always_accepts 3 5).2 (1 / 2) (by norm_num) (by norm_num)⟩

/-! ## Spin-coloring scheduler

The annealing cell derives an adjacency structure from the coupling keys
(`adj[n0].add(n1); adj[n1].add(n0)` for each `(n0, n1)` in `J`) and calls
`greedy_coloring(adj)`. -/

/-- Neighbors of `v` in the coupling graph: all `w` such that `(v, w)` or
`(w, v)` is a key of `J` (as a set, hence deduplicated). -/
def adjOf (Jd : List ((ℕ × ℕ) × ℚ)) (v : ℕ) : List ℕ :=
  ((Jd.filterMap fun p => if p.1.1 = v then some p.1.2 else none) ++
    (Jd.filterMap fun p => if p.1.2 = v then some p.1.1 else none)).dedup

theorem mem_adjOf {Jd : List ((ℕ × ℕ) × ℚ)} {v w : ℕ} :
    w ∈ adjOf Jd v ↔ ((v, w) ∈ Jd.map Prod.fst ∨ (w, v) ∈ Jd.map Prod.fst) := by
  rw [adjOf, List.mem_dedup, List.mem_append]
  constructor
  · rintro (h | h)
    · rcases List.mem_filterMap.1 h with ⟨p, hp, hf⟩
      by_cases h1 : p.1.1 = v
      · rw [if_pos h1] at hf
        injection hf with hf
        left
        refine List.mem_map.2 ⟨p, hp, ?_⟩
        rw [← h1, ← hf]
      · rw [if_neg h1] at hf
        exact absurd hf (by simp)
    · rcases List.mem_filterMap.1 h with ⟨p, hp, hf⟩
      by_cases h1 : p.1.2 = v
      · rw [if_pos h1] at hf
        injection hf with hf
        right
        refine List.mem_map.2 ⟨p, hp, ?_⟩
        rw [← h1, ← hf]
      · rw [if_neg h1] at hf
        exact absurd hf (by simp)
  · rintro (h | h)
    · rcases List.mem_map.1 h with ⟨p, hp, hf⟩
      left
      refine List.mem_filterMap.2 ⟨p, hp, ?_⟩
      rw [show p.1.1 = v from by rw [hf], if_pos rfl, show p.1.2 = w from by rw [hf]]
    · rcases List.mem_map.1 h with ⟨p, hp, hf⟩
      right
      refine List.mem_filterMap.2 ⟨p, hp, ?_⟩
      rw [show p.1.2 = v from by rw [hf], if_pos rfl, show p.1.1 = w from by rw [hf]]

theorem adjOf_symm (Jd : List ((ℕ × ℕ) × ℚ)) :
    ∀ u v, u ∈ adjOf Jd v → v ∈ adjOf Jd u := by
  intro u v h
  rw [mem_adjOf] at h ⊢
  tauto

theorem adjOf_nodup (Jd : List ((ℕ × ℕ) × ℚ)) (v : ℕ) : (adjOf Jd v).Nodup :=
  List.nodup_dedup _

/-- Smallest natural number not occurring in `used` (the smallest unused color,
searched among `0 .. |used|`, which always suffices). -/
def mex (used : List ℕ) : ℕ :=
  ((List.range (used.length + 1)).filter fun c => decide (c ∉ used)).headD 0

theorem mex_not_mem (used : List ℕ) : mex used ∉ used := by
  have hne : (List.range (used.length + 1)).filter (fun c => decide (c ∉ used)) ≠ [] := by
    intro hnil
    have hall := List.filter_eq_nil_iff.1 hnil
    have hsub : List.range (used.length + 1) ⊆ used := by
      intro c hc
      have := hall c hc
      simp at this
      exact this
    have hle := ((List.nodup_range (used.length + 1)).subperm hsub).length_le
    simp at hle
  rcases hl : (List.range (used.length + 1)).filter (fun c => decide (c ∉ used)) with _ | ⟨a, t⟩
  · exact absurd hl hne
  · have hmem : a ∈ (List.range (used.length + 1)).filter (fun c => decide (c ∉ used)) := by
      rw [hl]
      exact List.mem_cons_self _ _
    have := (List.mem_filter.1 hmem).2
    simp at this
    rw [mex, hl]
    exact this

/-- The colors already assigned to the given neighbors. -/
def usedColors (assign : List (ℕ × ℕ)) (nbrs : List ℕ) : List ℕ :=
  nbrs.filterMap (alookup assign)

/-- Modelled from the spec: the repository imports `greedy_coloring` from the
external dimod library (source not in the repository); per the spec it
processes nodes in a fixed order and gives each node the smallest color index
not already used by an already-colored neighbor. -/
def greedyGo (adj : ℕ → List ℕ) : List ℕ → List (ℕ × ℕ) → List (ℕ × ℕ)
  | [], assign => assign
  | v :: rest, assign =>
      greedyGo adj rest (assign ++ [(v, mex (usedColors assign (adj v)))])

/-- Per-node color assignment of the greedy coloring over the given node
order. -/
def greedyColoring (adj : ℕ → List ℕ) (order : List ℕ) : List (ℕ × ℕ) :=
  greedyGo adj order []

theorem greedyGo_keys (adj : ℕ → List ℕ) :
    ∀ (order : List ℕ) (assign : List (ℕ × ℕ)),
      (greedyGo adj order assign).map Prod.fst = assign.map Prod.fst ++ order := by
  intro order
  induction order with
  | nil => intro assign; simp [greedyGo]
  | cons v rest ih =>
    intro assign
    rw [greedyGo, ih]
    simp

/-- A proper partial coloring: distinct assigned nodes that are adjacent have
distinct colors. -/
def ProperAssign (adj : ℕ → List ℕ) (assign : List (ℕ × ℕ)) : Prop :=
  ∀ u cu v cv, (u, cu) ∈ assign → (v, cv) ∈ assign → u ≠ v → u ∈ adj v → cu ≠ cv

theorem mem_usedColors {assign : List (ℕ × ℕ)} {u cu : ℕ} {nbrs : List ℕ}
    (hmem : (u, cu) ∈ assign) (hnd : (assign.map Prod.fst).Nodup) (hu : u ∈ nbrs) :
    cu ∈ usedColors assign nbrs :=
  List.mem_filterMap.2 ⟨u, hu, alookup_of_mem_nodupKeys hmem hnd⟩

theorem greedyGo_proper (adj : ℕ → List ℕ) (hsym : ∀ u v, u ∈ adj v → v ∈ adj u) :
    ∀ (order : List ℕ) (assign : List (ℕ × ℕ)),
      (assign.map Prod.fst ++ order).Nodup → ProperAssign adj assign →
      ProperAssign adj (greedyGo adj order assign) := by
  intro order
  induction order with
  | nil =>
    intro assign _ hp
    rw [greedyGo]
    exact hp
  | cons v rest ih =>
    intro assign hnd hp
    rw [greedyGo]
    have hndkeys : (assign.map Prod.fst).Nodup := hnd.of_append_left
    have hvfresh : v ∉ assign.map Prod.fst := by
      intro hv
      rcases List.nodup_append.1 hnd with ⟨_, _, hdisj⟩
      exact hdisj hv (List.mem_cons_self _ _)
    apply ih
    · simpa using hnd
    · intro u cu v' cv' hu hv' hne hadj
      rcases List.mem_append.1 hu with hu1 | hu1
      · rcases List.mem_append.1 hv' with hv1 | hv1
        · exact hp u cu v' cv' hu1 hv1 hne hadj
        · have hv'' : v' = v ∧ cv' = mex (usedColors assign (adj v)) := by
            simpa using hv1
          rcases hv'' with ⟨rfl, rfl⟩
          have hused : cu ∈ usedColors assign (adj v') := mem_usedColors hu1 hndkeys hadj
          intro hcc
          exact mex_not_mem _ (hcc ▸ hused)
      · rcases List.mem_append.1 hv' with hv1 | hv1
        · have hu' : u = v ∧ cu = mex (usedColors assign (adj v)) := by
            simpa using hu1
          rcases hu' with ⟨rfl, rfl⟩
          have hadj' : v' ∈ adj u := hsym u v' hadj
          have hused : cv' ∈ usedColors assign (adj u) := mem_usedColors hv1 hndkeys hadj'
          intro hcc
          exact mex_not_mem _ (hcc.symm ▸ hused)
        · have hu' : u = v ∧ cu = mex (usedColors assign (adj v)) := by simpa using hu1
          have hv'' : v' = v ∧ cv' = mex (usedColors assign (adj v)) := by simpa using hv1
          exact absurd (hu'.1.trans hv''.1.symm) hne

/-- Number of color classes: the largest assigned color plus one. -/
def numColors (assign : List (ℕ × ℕ)) : ℕ := ((assign.map Prod.snd).foldr max 0) + 1

/-- The ordered color classes: for each color `c`, the nodes (in node order)
assigned color `c`. -/
def colorClasses (adj : ℕ → List ℕ) (order : List ℕ) : List (List ℕ) :=
  List.map
    (fun c => order.filter fun v => decide (alookup (greedyColoring adj order) v = some c))
    (List.range (numColors (greedyColoring adj order)))

theorem le_foldr_max (l : List ℕ) : ∀ x ∈ l, x ≤ l.foldr max 0 := by
  induction l with
  | nil => intro x hx; simp at hx
  | cons a t ih =>
    intro x hx
    rcases List.mem_cons.1 hx with rfl | hx
    · exact le_max_left _ _
    · exact le_trans (ih x hx) (le_max_right _ _)

theorem greedy_lookup_exists (adj : ℕ → List ℕ) (order : List ℕ) (v : ℕ) (hv : v ∈ order) :
    ∃ c, alookup (greedyColoring adj order) v = some c ∧
      c < numColors (greedyColoring adj order) := by
  have hkeys : (greedyColoring adj order).map Prod.fst = order := by
    have := greedyGo_keys adj order []
    simpa [greedyColoring] using this
  obtain ⟨c, hc⟩ := alookup_isSome_of_mem_keys (l := greedyColoring adj order) (k := v)
    (by rw [hkeys]; exact hv)
  refine ⟨c, hc, ?_⟩
  have hmem := alookup_mem hc
  have hcs : c ∈ (greedyColoring adj order).map Prod.snd :=
    List.mem_map.2 ⟨(v, c), hmem, rfl⟩
  have := le_foldr_max _ c hcs
  rw [numColors]
  omega

theorem count_filter_decide (v : ℕ) (p : ℕ → Prop) [DecidablePred p] (l : List ℕ) :
    (l.filter fun x => decide (p x)).count v = if p v then l.count v else 0 := by
  induction l with
  | nil => simp
  | cons a t ih =>
    by_cases hpa : p a
    · rw [List.filter_cons_of_pos (by simp [hpa]), List.count_cons, ih, List.count_cons]
      by_cases hva : v = a
      · subst hva
        simp [hpa]
      · have : ¬(a == v) = true := by simp; exact fun hh => hva hh.symm
        simp only [this, if_false]
        by_cases hpv : p v <;> simp [hpv]
    · rw [List.filter_cons_of_neg (by simp [hpa]), ih, List.count_cons]
      by_cases hpv : p v
      · have hva : ¬(a == v) = true := by
          simp
          intro hh
          exact hpa (hh ▸ hpv)
        simp [hpv, hva]
      · simp [hpv]

theorem sum_range_indicator (N c0 A : ℕ) :
    ((List.range N).map fun c => if c0 = c then A else 0).sum = if c0 < N then A else 0 := by
  induction N with
  | zero => simp
  | succ N ih =>
    rw [List.range_succ, List.map_append, List.sum_append, ih]
    by_cases h : c0 < N
    · have h1 : c0 ≠ N := by omega
      have h2 : c0 < N + 1 := by omega
      simp [h, h1, h2]
    · by_cases h2 : c0 = N
      · subst h2
        simp [h]
      · have h3 : ¬ c0 < N + 1 := by omega
        simp [h, h2, h3]

theorem colorClasses_subset (adj : ℕ → List ℕ) (order : List ℕ) :
    ∀ ns ∈ colorClasses adj order, ∀ u ∈ ns, u ∈ order := by
  intro ns hns u hu
  rcases List.mem_map.1 hns with ⟨cc, _, rfl⟩
  exact (List.mem_filter.1 hu).1

theorem colorClasses_count (adj : ℕ → List ℕ) (order : List ℕ) (a : ℕ) :
    (colorClasses adj order).flatten.count a = order.count a := by
  rw [List.count_flatten, colorClasses, List.map_map]
  by_cases ha : a ∈ order
  · obtain ⟨c0, hc0, hc0lt⟩ := greedy_lookup_exists adj order a ha
    have hcong : ∀ c ∈ List.range (numColors (greedyColoring adj order)),
        ((List.count a ∘ fun c =>
            order.filter fun v => decide (alookup (greedyColoring adj order) v = some c)) c) =
          (if c0 = c then order.count a else 0) := by
      intro c _
      show (order.filter fun v =>
          decide (alookup (greedyColoring adj order) v = some c)).count a = _
      rw [count_filter_decide a (fun v => alookup (greedyColoring adj order) v = some c), hc0]
      by_cases hcc : c0 = c
      · subst hcc
        simp
      · have : ¬ (some c0 = some c) := by
          intro hh
          injection hh with hh
          exact hcc hh
        simp [this, hcc]
    rw [List.map_congr_left hcong, sum_range_indicator, if_pos hc0lt]
  · have hzero : order.count a = 0 := List.count_eq_zero.2 ha
    rw [hzero]
    apply List.sum_eq_zero
    intro x hx
    rcases List.mem_map.1 hx with ⟨c, _, rfl⟩
    show (order.filter fun v =>
        decide (alookup (greedyColoring adj order) v = some c)).count a = 0
    rw [count_filter_decide a (fun v => alookup (greedyColoring adj order) v = some c)]
    simp [hzero]

/-- Keys of the bias dictionary (Python dict keys are unique). -/
def nodeKeys (hd : List (ℕ × ℚ)) : List ℕ := (hd.map Prod.fst).dedup

/-- The nodes in ascending id order, the deterministic processing order of the
greedy coloring. -/
def sortedNodes (hd : List (ℕ × ℚ)) : List ℕ := List.insertionSort (· ≤ ·) (nodeKeys hd)

theorem sortedNodes_nodup (hd : List (ℕ × ℚ)) : (sortedNodes hd).Nodup :=
  ((List.perm_insertionSort _ _).nodup_iff).2 (List.nodup_dedup _)

theorem mem_sortedNodes {hd : List (ℕ × ℚ)} {v : ℕ} :
    v ∈ sortedNodes hd ↔ v ∈ nodeKeys hd :=
  (List.perm_insertionSort _ _).mem_iff

/-- C4: the greedy coloring of the coupling graph is proper (no two adjacent
nodes share a class) and its classes partition the node set exactly. -/
theorem color_graph_proper_partition (hd : List (ℕ × ℚ)) (Jd : List ((ℕ × ℕ) × ℚ)) :
    (∀ cls ∈ colorClasses (adjOf Jd) (sortedNodes hd),
      ∀ u ∈ cls, ∀ v ∈ cls, u ≠ v → u ∉ adjOf Jd v) ∧
    List.Perm (colorClasses (adjOf Jd) (sortedNodes hd)).flatten (sortedNodes hd) := by
  constructor
  · intro cls hcls u hu v hv hne hadj
    rcases List.mem_map.1 hcls with ⟨c, _, rfl⟩
    have hu' := List.mem_filter.1 hu
    have hv' := List.mem_filter.1 hv
    have hcu : alookup (greedyColoring (adjOf Jd) (sortedNodes hd)) u = some c := by
      have := hu'.2
      simpa using this
    have hcv : alookup (greedyColoring (adjOf Jd) (sortedNodes hd)) v = some c := by
      have := hv'.2
      simpa using this
    have hproper : ProperAssign (adjOf Jd) (greedyColoring (adjOf Jd) (sortedNodes hd)) := by
      apply greedyGo_proper (adjOf Jd) (adjOf_symm Jd) (sortedNodes hd) []
      · simpa using sortedNodes_nodup hd
      · intro u cu v cv hu hv
        simp at hu
    exact hproper u c v c (alookup_mem hcu) (alookup_mem hcv) hne hadj rfl
  · rw [List.perm_iff_count]
    intro a
    exact colorClasses_count (adjOf Jd) (sortedNodes hd) a

/-- Witness for `color_graph_proper_partition` on the 3-node chain: nodes 0 and
2 share class `[0, 2]` and are indeed not adjacent, and the classes flatten to
the node set. -/
theorem color_graph_proper_partition_witness :
    (0 : ℕ) ≠ 2 ∧ (0 : ℕ) ∉ adjOf Jd3 2 ∧
    List.Perm (colorClasses (adjOf Jd3) (sortedNodes hd3)).flatten (sortedNodes hd3) := by
  have h := color_graph_proper_partition hd3 Jd3
  refine ⟨by decide, ?_, h.2⟩
  exact h.1 [0, 2] (by decide) 0 (by decide) 2 (by decide) (by decide)

/-! ## Annealing sampler (the clamped simulated-annealing loop)

Per sweep: `energy_diff_h` is computed once from the sweep-start state; per
color class, `energy_diff_J` is computed for each class node from the
class-start state; each non-clamped class node then draws
`logp = log(uniform(0,1))` and flips iff
`logp < -1 * β * (energy_diff_h[v] + energy_diff_J[v])`.

The uniform draw consumed for node `v` is abstracted by a Boolean decision
oracle receiving the stream position and the numeric threshold
`-1 * β * (energy_diff_h[v] + energy_diff_J[v])` (the numeric criterion on one
draw is `accept` / `acceptAtDraw` above); every realizable draw sequence
corresponds to some oracle. -/

/-- Bias lookup `h[v]` (the models give every node a bias entry). -/
def hval (hd : List (ℕ × ℚ)) (v : ℕ) : ℚ := (alookup hd v).getD 0

/-- Coupling lookup `J[(u, v)]`. -/
def jval (Jd : List ((ℕ × ℕ) × ℚ)) (k : ℕ × ℕ) : ℚ := (alookup Jd k).getD 0

/-- One neighbor's contribution to `ediff`, mirroring the two membership
tests `if (v0, v1) in J` and `if (v1, v0) in J` of the source. -/
def termJ (Jd : List ((ℕ × ℕ) × ℚ)) (s : ℕ → ℤ) (v0 v1 : ℕ) : ℚ :=
  (if (v0, v1) ∈ Jd.map Prod.fst then (s v0 : ℚ) * (s v1 : ℚ) * jval Jd (v0, v1) else 0) +
    (if (v1, v0) ∈ Jd.map Prod.fst then (s v0 : ℚ) * (s v1 : ℚ) * jval Jd (v1, v0) else 0)

/-- The `ediff` accumulation over all neighbors of `v0`. -/
def jsum (Jd : List ((ℕ × ℕ) × ℚ)) (s : ℕ → ℤ) (v0 : ℕ) : ℚ :=
  ((adjOf Jd v0).map (termJ Jd s v0)).sum

/-- `energy_diff_J[v0] = -2 * ediff`. -/
def ediffJfun (Jd : List ((ℕ × ℕ) × ℚ)) (s : ℕ → ℤ) (v0 : ℕ) : ℚ := -2 * jsum Jd s v0

/-- `energy_diff_h[v] = -2 * spins[v] * h[v]`, computed once per sweep. -/
def ediffHfun (hd : List (ℕ × ℚ)) (s : ℕ → ℤ) (v : ℕ) : ℚ := -2 * (s v : ℚ) * hval hd v

/-- Total coupling between `u` and `v` over both key orderings. -/
def pairCoupling (Jd : List ((ℕ × ℕ) × ℚ)) (u v : ℕ) : ℚ :=
  (if (u, v) ∈ Jd.map Prod.fst then jval Jd (u, v) else 0) +
    (if (v, u) ∈ Jd.map Prod.fst then jval Jd (v, u) else 0)

/-- One node update inside a color class: clamped nodes are skipped
(`filter(lambda x: x not in clamped_spins, nodes)`); otherwise the oracle
decides the Metropolis test at the precomputed threshold and an accepted flip
multiplies the spin by `-1` immediately. -/
def stepFn (Jd : List ((ℕ × ℕ) × ℚ)) (cK : List ℕ) (eH : ℕ → ℚ) (β : ℚ)
    (dec : ℕ → ℚ → Bool) (s0 : ℕ → ℤ) : (ℕ → ℤ) → ℕ → (ℕ → ℤ) := fun s v =>
  if v ∈ cK then s
  else if dec v (-1 * β * (eH v + ediffJfun Jd s0 v)) then Function.update s v (-(s v))
  else s

/-- Update pass over one color class: all flip-deltas are taken from the
class-start state `s0`; accepted flips are applied immediately. -/
def classStep (Jd : List ((ℕ × ℕ) × ℚ)) (cK : List ℕ) (eH : ℕ → ℚ) (β : ℚ)
    (dec : ℕ → ℚ → Bool) (s0 : ℕ → ℤ) (ns : List ℕ) : ℕ → ℤ :=
  ns.foldl (stepFn Jd cK eH β dec s0) s0

/-- One sweep: `energy_diff_h` is frozen from the sweep-start state `s`, then
the color classes are processed in order. -/
def sweep (hd : List (ℕ × ℚ)) (Jd : List ((ℕ × ℕ) × ℚ)) (cK : List ℕ)
    (classes : List (List ℕ)) (β : ℚ) (dec : ℕ → ℚ → Bool) (s : ℕ → ℤ) : ℕ → ℤ :=
  classes.foldl (fun t ns => classStep Jd cK (ediffHfun hd s) β dec t ns) s

/-- Initial configuration: every clamped node carries its clamped value, every
other node its random draw `ic v` from `{-1, +1}`. -/
def initSpins (clamped : List (ℕ × ℤ)) (ic : ℕ → ℤ) : ℕ → ℤ := fun v =>
  match alookup clamped v with
  | some x => x
  | none => ic v

/-- The full annealing run: initialize, then one sweep per schedule entry
(`for β in βs`), with the color classes of the greedy coloring of the coupling
graph; returns the final configuration. The source performs no validation of
the clamped ids or of the schedule. -/
def anneal (hd : List (ℕ × ℚ)) (Jd : List ((ℕ × ℕ) × ℚ)) (clamped : List (ℕ × ℤ))
    (schedule : List ℚ) (ic : ℕ → ℤ) (dec : ℕ → ℕ → ℚ → Bool) : ℕ → ℤ :=
  (schedule.enum).foldl
    (fun s kβ =>
      sweep hd Jd (clamped.map Prod.fst) (colorClasses (adjOf Jd) (sortedNodes hd)) kβ.2
        (dec kβ.1) s)
    (initSpins clamped ic)

theorem stepFn_foldl_clamped (Jd : List ((ℕ × ℕ) × ℚ)) (cK : List ℕ) (eH : ℕ → ℚ) (β : ℚ)
    (dec : ℕ → ℚ → Bool) (s0 : ℕ → ℤ) (v : ℕ) (hv : v ∈ cK) :
    ∀ (ns : List ℕ) (t : ℕ → ℤ), (ns.foldl (stepFn Jd cK eH β dec s0) t) v = t v := by
  intro ns
  induction ns with
  | nil => intro t; rfl
  | cons u rest ih =>
    intro t
    rw [List.foldl_cons, ih]
    rw [stepFn]
    split_ifs with h1 h2
    · rfl
    · refine Function.update_noteq ?_ _ t
      intro hh
      rw [← hh] at h1
      exact h1 hv
    · rfl

theorem classStep_clamped (Jd : List ((ℕ × ℕ) × ℚ)) (cK : List ℕ) (eH : ℕ → ℚ) (β : ℚ)
    (dec : ℕ → ℚ → Bool) (s0 : ℕ → ℤ) (ns : List ℕ) (v : ℕ) (hv : v ∈ cK) :
    classStep Jd cK eH β dec s0 ns v = s0 v :=
  stepFn_foldl_clamped Jd cK eH β dec s0 v hv ns s0

theorem foldl_state_pres {α : Type} (P : (ℕ → ℤ) → Prop) (F : (ℕ → ℤ) → α → (ℕ → ℤ))
    (hF : ∀ t a, P t → P (F t a)) :
    ∀ (l : List α) (t : ℕ → ℤ), P t → P (l.foldl F t) := by
  intro l
  induction l with
  | nil => intro t h; exact h
  | cons a rest ih => intro t h; exact ih _ (hF t a h)

theorem sweep_clamped (hd : List (ℕ × ℚ)) (Jd : List ((ℕ × ℕ) × ℚ)) (cK : List ℕ)
    (classes : List (List ℕ)) (β : ℚ) (dec : ℕ → ℚ → Bool) (s : ℕ → ℤ) (v : ℕ) (val : ℤ)
    (hv : v ∈ cK) (hs : s v = val) : sweep hd Jd cK classes β dec s v = val := by
  refine foldl_state_pres (fun t => t v = val) _ ?_ classes s hs
  intro t ns ht
  rw [classStep_clamped _ _ _ _ _ _ _ _ hv]
  exact ht

theorem mem_clamped_keys {clamped : List (ℕ × ℤ)} {v : ℕ} {val : ℤ}
    (h : alookup clamped v = some val) : v ∈ clamped.map Prod.fst :=
  List.mem_map.2 ⟨(v, val), alookup_mem h, rfl⟩

theorem termJ_eq (Jd : List ((ℕ × ℕ) × ℚ)) (s : ℕ → ℤ) (v0 v1 : ℕ) :
    termJ Jd s v0 v1 = (s v0 : ℚ) * (s v1 : ℚ) * pairCoupling Jd v0 v1 := by
  rw [termJ, pairCoupling]
  split_ifs <;> ring

theorem pairCoupling_eq_zero {Jd : List ((ℕ × ℕ) × ℚ)} {u v : ℕ} (h : v ∉ adjOf Jd u) :
    pairCoupling Jd u v = 0 := by
  rw [mem_adjOf] at h
  push_neg at h
  rw [pairCoupling, if_neg h.1, if_neg h.2]
  ring

theorem sum_map_single_change (w : ℕ) (f g : ℕ → ℚ) :
    ∀ l : List ℕ, (∀ a ∈ l, a ≠ w → f a = g a) → l.Nodup →
      (l.map g).sum = (l.map f).sum + (if w ∈ l then g w - f w else 0) := by
  intro l
  induction l with
  | nil => intro _ _; simp
  | cons a rest ih =>
    intro hfg hnd
    rw [List.map_cons, List.map_cons, List.sum_cons, List.sum_cons]
    rcases List.nodup_cons.1 hnd with ⟨haw, hrest⟩
    by_cases h : a = w
    · subst h
      have heq : (rest.map g).sum = (rest.map f).sum := by
        have hih := ih (fun b hb hbw => hfg b (List.mem_cons_of_mem _ hb) hbw) hrest
        rw [hih, if_neg haw]
        ring
      rw [heq, if_pos (List.mem_cons_self _ _)]
      ring
    · have hfa : f a = g a := hfg a (List.mem_cons_self _ _) h
      rw [ih (fun b hb hbw => hfg b (List.mem_cons_of_mem _ hb) hbw) hrest, hfa]
      by_cases hw : w ∈ rest
      · rw [if_pos hw, if_pos (List.mem_cons_of_mem _ hw)]
        ring
      · rw [if_neg hw, if_neg ?_]
        · ring
        · intro hh
          rcases List.mem_cons.1 hh with hh | hh
          · exact h hh.symm
          · exact hw hh

theorem jsum_update (Jd : List ((ℕ × ℕ) × ℚ)) (s : ℕ → ℤ) (v : ℕ) (x : ℤ) (u : ℕ)
    (huv : u ≠ v) :
    jsum Jd (Function.update s v x) u =
      jsum Jd s u + (s u : ℚ) * ((x : ℚ) - (s v : ℚ)) * pairCoupling Jd u v := by
  have hfg : ∀ a ∈ adjOf Jd u, a ≠ v →
      termJ Jd s u a = termJ Jd (Function.update s v x) u a := by
    intro a _ hav
    rw [termJ, termJ, Function.update_noteq huv, Function.update_noteq hav]
  have hsum := sum_map_single_change v (termJ Jd s u) (termJ Jd (Function.update s v x) u)
    (adjOf Jd u) hfg (adjOf_nodup Jd u)
  rw [jsum, jsum, hsum]
  by_cases hv : v ∈ adjOf Jd u
  · rw [if_pos hv, termJ_eq, termJ_eq, Function.update_noteq huv, Function.update_same]
    ring
  · rw [if_neg hv, pairCoupling_eq_zero hv]
    ring

/-- C3: a clamped node carries its clamped value at initialization, after any
number of sweeps, and in the final configuration of every run (the update loop
filters clamped nodes out), while its spin still enters the flip-delta of every
adjacent node through the coupling: updating the clamped node's spin shifts
the neighbor's `energy_diff_J` by `-2·s(u)·(x - s(v))·J(u,v or v,u)`, a nonzero
shift whenever the total coupling is nonzero and the spins are in `{-1,+1}`. -/
theorem anneal_clamped_invariant (hd : List (ℕ × ℚ)) (Jd : List ((ℕ × ℕ) × ℚ))
    (clamped : List (ℕ × ℤ)) (ic : ℕ → ℤ) (dec : ℕ → ℕ → ℚ → Bool) (v : ℕ) (val : ℤ)
    (hcl : alookup clamped v = some val) :
    initSpins clamped ic v = val ∧
    (∀ schedule : List ℚ, anneal hd Jd clamped schedule ic dec v = val) ∧
    (∀ (s : ℕ → ℤ) (x : ℤ) (u : ℕ), u ≠ v →
      ediffJfun Jd (Function.update s v x) u =
        ediffJfun Jd s u - 2 * (s u : ℚ) * ((x : ℚ) - (s v : ℚ)) * pairCoupling Jd u v) := by
  have hinit : initSpins clamped ic v = val := by
    rw [initSpins, hcl]
  have hmem : v ∈ clamped.map Prod.fst := mem_clamped_keys hcl
  refine ⟨hinit, ?_, ?_⟩
  · intro schedule
    refine foldl_state_pres (fun t => t v = val) _ ?_ schedule.enum (initSpins clamped ic) hinit
    intro t kβ ht
    exact sweep_clamped hd Jd _ _ _ _ t v val hmem ht
  · intro s x u huv
    rw [ediffJfun, ediffJfun, jsum_update Jd s v x u huv]
    ring

/-- Witness for `anneal_clamped_invariant`: clamping node 0 to `-1` on the
3-node chain, the final configuration after one sweep still has `-1` there. -/
theorem anneal_clamped_invariant_witness :
    alookup [((0 : ℕ), (-1 : ℤ))] 0 = some (-1) ∧
    anneal hd3 Jd3 [(0, -1)] [1] (fun _ => 1) (fun _ _ _ => true) 0 = -1 := by
  refine ⟨rfl, ?_⟩
  exact (anneal_clamped_invariant hd3 Jd3 [(0, -1)] (fun _ => 1) (fun _ _ _ => true) 0 (-1)
    rfl).2.1 [1]

/-! ## C9: the source performs no validation

There is no check on clamped ids and no check on the schedule: an unknown
clamped id is silently ignored and an empty schedule returns the initial
configuration. -/

/-- A fixed deterministic initialization (every non-clamped node starts at
`+1`). -/
def ic0 : ℕ → ℤ := fun _ => 1

/-- The always-accept decision oracle. -/
def dec0 : ℕ → ℕ → ℚ → Bool := fun _ _ _ => true

/-- C9 counterexample: with a clamped id `5` that is not a node of the 3-chain
model AND an empty schedule, `anneal` does not fail with any error: it runs to
completion and returns its initial configuration, and node 0 keeps its random
initialization. -/
theorem anneal_no_validation_counterexample :
    anneal hd3 Jd3 [(5, -1)] [] ic0 dec0 = initSpins [(5, -1)] ic0 ∧
    anneal hd3 Jd3 [(5, -1)] [] ic0 dec0 0 = 1 :=
  ⟨rfl, rfl⟩

/-- Two spin states that agree everywhere except possibly at node `c`. -/
def EqOff (c : ℕ) (s t : ℕ → ℤ) : Prop := ∀ y, y ≠ c → s y = t y

theorem adjOf_ne_of_not_endpoint {Jd : List ((ℕ × ℕ) × ℚ)} {c : ℕ}
    (hJ : ∀ p ∈ Jd, p.1.1 ≠ c ∧ p.1.2 ≠ c) :
    ∀ u w, w ∈ adjOf Jd u → w ≠ c := by
  intro u w hw
  rw [mem_adjOf] at hw
  rcases hw with h | h
  · rcases List.mem_map.1 h with ⟨p, hp, hf⟩
    have h2 := (hJ p hp).2
    have : p.1.2 = w := by rw [hf]
    rw [← this]
    exact h2
  · rcases List.mem_map.1 h with ⟨p, hp, hf⟩
    have h1 := (hJ p hp).1
    have : p.1.1 = w := by rw [hf]
    rw [← this]
    exact h1

theorem jsum_congr {Jd : List ((ℕ × ℕ) × ℚ)} {c : ℕ}
    (hJ : ∀ p ∈ Jd, p.1.1 ≠ c ∧ p.1.2 ≠ c) {s t : ℕ → ℤ} (hst : EqOff c s t) {u : ℕ}
    (hu : u ≠ c) : jsum Jd s u = jsum Jd t u := by
  rw [jsum, jsum]
  congr 1
  apply List.map_congr_left
  intro a ha
  have hac : a ≠ c := adjOf_ne_of_not_endpoint hJ u a ha
  rw [termJ, termJ, hst u hu, hst a hac]

theorem classStep_fold_congr (Jd : List ((ℕ × ℕ) × ℚ)) (c : ℕ)
    (hJ : ∀ p ∈ Jd, p.1.1 ≠ c ∧ p.1.2 ≠ c) (cK cK' : List ℕ)
    (hK : ∀ u, u ≠ c → (u ∈ cK' ↔ u ∈ cK)) (eH eH' : ℕ → ℚ)
    (hEH : ∀ u, u ≠ c → eH' u = eH u) (β : ℚ) (dec : ℕ → ℚ → Bool) (s0 s0' : ℕ → ℤ)
    (hs0 : EqOff c s0' s0) :
    ∀ (ns : List ℕ), (∀ u ∈ ns, u ≠ c) → ∀ (t t' : ℕ → ℤ), EqOff c t' t →
      EqOff c (ns.foldl (stepFn Jd cK' eH' β dec s0') t')
        (ns.foldl (stepFn Jd cK eH β dec s0) t) := by
  intro ns
  induction ns with
  | nil => intro _ t t' h; exact h
  | cons u rest ih =>
    intro hns t t' ht
    rw [List.foldl_cons, List.foldl_cons]
    have huc : u ≠ c := hns u (List.mem_cons_self _ _)
    have hstep : EqOff c (stepFn Jd cK' eH' β dec s0' t' u) (stepFn Jd cK eH β dec s0 t u) := by
      simp only [stepFn]
      by_cases hK1 : u ∈ cK
      · rw [if_pos ((hK u huc).2 hK1), if_pos hK1]
        exact ht
      · have hK1' : u ∉ cK' := fun hh => hK1 ((hK u huc).1 hh)
        rw [if_neg hK1', if_neg hK1]
        have hth : -1 * β * (eH' u + ediffJfun Jd s0' u) =
            -1 * β * (eH u + ediffJfun Jd s0 u) := by
          rw [hEH u huc, ediffJfun, ediffJfun, jsum_congr hJ hs0 huc]
        rw [hth]
        by_cases hdec : dec u (-1 * β * (eH u + ediffJfun Jd s0 u)) = true
        · rw [if_pos hdec, if_pos hdec]
          intro y hy
          by_cases hyu : y = u
          · subst hyu
            rw [Function.update_same, Function.update_same, ht y hy]
          · rw [Function.update_noteq hyu, Function.update_noteq hyu]
            exact ht y hy
        · rw [if_neg hdec, if_neg hdec]
          exact ht
    exact ih (fun w hw => hns w (List.mem_cons_of_mem _ hw)) _ _ hstep

theorem sweep_congr (hd : List (ℕ × ℚ)) (Jd : List ((ℕ × ℕ) × ℚ)) (c : ℕ)
    (hJ : ∀ p ∈ Jd, p.1.1 ≠ c ∧ p.1.2 ≠ c) (cK cK' : List ℕ)
    (hK : ∀ u, u ≠ c → (u ∈ cK' ↔ u ∈ cK)) (classes : List (List ℕ))
    (hcls : ∀ ns ∈ classes, ∀ u ∈ ns, u ≠ c) (β : ℚ) (dec : ℕ → ℚ → Bool)
    (s s' : ℕ → ℤ) (hs : EqOff c s' s) :
    EqOff c (sweep hd Jd cK' classes β dec s') (sweep hd Jd cK classes β dec s) := by
  have hEH : ∀ u, u ≠ c → ediffHfun hd s' u = ediffHfun hd s u := by
    intro u hu
    rw [ediffHfun, ediffHfun, hs u hu]
  rw [sweep, sweep]
  suffices haux : ∀ (cls : List (List ℕ)), (∀ ns ∈ cls, ∀ u ∈ ns, u ≠ c) →
      ∀ (t t' : ℕ → ℤ), EqOff c t' t →
      EqOff c (cls.foldl (fun tt ns => classStep Jd cK' (ediffHfun hd s') β dec tt ns) t')
        (cls.foldl (fun tt ns => classStep Jd cK (ediffHfun hd s) β dec tt ns) t) by
    exact haux classes hcls s s' hs
  intro cls
  induction cls with
  | nil => intro _ t t' h; exact h
  | cons ns rest ih =>
    intro hcl t t' ht
    rw [List.foldl_cons, List.foldl_cons]
    apply ih (fun m hm u hu => hcl m (List.mem_cons_of_mem _ hm) u hu)
    rw [classStep, classStep]
    exact classStep_fold_congr Jd c hJ cK cK' hK _ _ hEH β dec t t' ht ns
      (hcl ns (List.mem_cons_self _ _)) t t' ht

/-- C9 (amended): `anneal` performs no validation at all. An empty cooling
schedule is not rejected: the run returns the initial configuration. A clamped
node id that does not occur in the model is not rejected either: it is simply
ignored, leaving the value of every actual node of the run unchanged. No
`InvalidConfiguration` error exists in the code. -/
theorem anneal_no_validation (hd : List (ℕ × ℚ)) (Jd : List ((ℕ × ℕ) × ℚ))
    (clamped : List (ℕ × ℤ)) (ic : ℕ → ℤ) (dec : ℕ → ℕ → ℚ → Bool) :
    (anneal hd Jd clamped [] ic dec = initSpins clamped ic) ∧
    (∀ (c : ℕ) (x : ℤ) (schedule : List ℚ) (v : ℕ),
      (∀ p ∈ Jd, p.1.1 ≠ c ∧ p.1.2 ≠ c) → c ∉ nodeKeys hd → v ≠ c →
      anneal hd Jd (clamped ++ [(c, x)]) schedule ic dec v =
        anneal hd Jd clamped schedule ic dec v) := by
  refine ⟨rfl, ?_⟩
  intro c x schedule v hJ hc hv
  have hK : ∀ u, u ≠ c →
      (u ∈ (clamped ++ [(c, x)]).map Prod.fst ↔ u ∈ clamped.map Prod.fst) := by
    intro u hu
    rw [List.map_append]
    constructor
    · intro hmem
      rcases List.mem_append.1 hmem with hmem | hmem
      · exact hmem
      · simp at hmem
        exact absurd hmem hu
    · intro hmem
      exact List.mem_append.2 (Or.inl hmem)
  have hinit : EqOff c (initSpins (clamped ++ [(c, x)]) ic) (initSpins clamped ic) := by
    intro y hy
    simp only [initSpins]
    rw [alookup_append]
    cases hcl : alookup clamped y with
    | some b => rfl
    | none =>
      have hnone : alookup [(c, x)] y = none := by
        rw [alookup_cons, if_neg (fun hh => hy hh.symm), alookup_nil]
      rw [hnone]
  have hcls : ∀ ns ∈ colorClasses (adjOf Jd) (sortedNodes hd), ∀ u ∈ ns, u ≠ c := by
    intro ns hns u hu
    have hmem := colorClasses_subset (adjOf Jd) (sortedNodes hd) ns hns u hu
    have hk : u ∈ nodeKeys hd := mem_sortedNodes.1 hmem
    intro hcc
    rw [hcc] at hk
    exact hc hk
  rw [anneal, anneal]
  suffices haux : ∀ (l : List (ℕ × ℚ)) (t t' : ℕ → ℤ), EqOff c t' t →
      EqOff c
        (l.foldl
          (fun s kβ =>
            sweep hd Jd ((clamped ++ [(c, x)]).map Prod.fst)
              (colorClasses (adjOf Jd) (sortedNodes hd)) kβ.2 (dec kβ.1) s) t')
        (l.foldl
          (fun s kβ =>
            sweep hd Jd (clamped.map Prod.fst)
              (colorClasses (adjOf Jd) (sortedNodes hd)) kβ.2 (dec kβ.1) s) t) by
    exact haux schedule.enum _ _ hinit v hv
  intro l
  induction l with
  | nil => intro t t' h; exact h
  | cons kβ rest ih =>
    intro t t' ht
    rw [List.foldl_cons, List.foldl_cons]
    apply ih
    exact sweep_congr hd Jd c hJ (clamped.map Prod.fst) ((clamped ++ [(c, x)]).map Prod.fst)
      hK (colorClasses (adjOf Jd) (sortedNodes hd)) hcls kβ.2 (dec kβ.1) t t' ht

/-- Witness for `anneal_no_validation`: adding the foreign clamped id `5` to
the 3-chain run does not change node 0's final value. -/
theorem anneal_no_validation_witness :
    (5 : ℕ) ∉ nodeKeys hd3 ∧
    anneal hd3 Jd3 ([] ++ [(5, -1)]) [1] ic0 dec0 0 = anneal hd3 Jd3 [] [1] ic0 dec0 0 := by
  refine ⟨by decide, ?_⟩
  exact (anneal_no_validation hd3 Jd3 [] ic0 dec0).2 5 (-1) [1] 0 (by decide) (by decide)
    (by decide)

end QmlCore
